import Mathlib

/-!
# Verification of the windowed incremental extraction core (GitHub source)

Shallow embedding of `src/dlt_providers/sources/github/__init__.py`:
the `commits` transformer (simple incremental fetch) and the
`workflow_runs` transformer (window-narrowing incremental fetch with
per-parent checkpointing and failure isolation).

Timestamps (`created_at` strings in the source) are modelled as `Nat`
(ISO-8601 strings compare lexicographically, which on fixed-format dates
coincides with a total order; all the code does is copy them around and
hand them to the fetcher).  The paginated REST client is modelled as a
function from the window upper bound (the `cursor`; `none` stands for the
open bound `"*"`) to the finite list of pages it yields, together with a
flag saying whether the page iterator raises after yielding those pages
(a transient fetch error surfacing mid-pagination).
-/

/-- A record returned by the API: an identity (`id` in the source) and its
`created_at` timestamp. -/
structure ApiRecord where
  rid : Nat
  created_at : Nat
deriving DecidableEq, Repr

/-- A page is an ordered list of records (`page` in the source). -/
abbrev Page := List ApiRecord

/-- The upper bound of the query window: `none` models the initial
cursor `"*"` (unbounded); `some u` models a narrowed bound. -/
abbrev Cursor := Option Nat

/-- Result of one paginated fetch call: the pages the iterator yields, and
whether pulling past the last yielded page raises an exception. -/
structure FetchResult where
  pages : List Page
  raises : Bool
deriving DecidableEq, Repr

/-- A fetcher for one parent with the lower bound already fixed: maps the
window's upper-bound cursor to the fetch result (`client.paginate` with
`created = f"{checkpoint}..{cursor}"`). -/
abbrev Fetch := Cursor → FetchResult

/-- State of the inner `for idx, page in enumerate(pages)` loop of
`workflow_runs` (lines 158-174): the tracking variables, the binding of
the Python variable `page` (`none` = still unbound), whether the loop
exited via `break` on an empty page, and the pages yielded so far. -/
structure PageLoopState where
  latest : Option Nat
  oldest : Option Nat
  inLimit : Bool
  pageVar : Option Page
  broke : Bool
  emitted : List Page
deriving DecidableEq, Repr

/-- The inner page loop of `workflow_runs` (lines 158-174): breaks on an
empty page; otherwise records `latest_run_date` from the first record of
the first page seen, `oldest_run_date` from the last record of each page,
yields the page, and clears `in_limit` once the zero-based page index
reaches 9 (the 1000-results cap at 100 records per page). -/
def processPages : List Page → Nat → PageLoopState → PageLoopState
  | [], _, s => s
  | p :: rest, idx, s =>
    if p = [] then { s with pageVar := some p, broke := true }
    else
      processPages rest (idx + 1)
        { latest := s.latest.or (p.head?.map ApiRecord.created_at)
          oldest := p.getLast?.map ApiRecord.created_at
          inLimit := if 9 ≤ idx then false else s.inLimit
          pageVar := some p
          broke := false
          emitted := s.emitted ++ [p] }

/-- Outcome of one parent's `workflow_runs` extraction: whether an
exception was caught by the per-parent handler (lines 196-200), the final
`latest_run_date`, all pages yielded, and the query windows issued
(lower bound, upper cursor) in order. -/
structure WROut where
  failed : Bool
  latest : Option Nat
  emitted : List Page
  queries : List (Nat × Cursor)
deriving DecidableEq, Repr

/-- The `while True` window loop of `workflow_runs` (lines 143-187),
with explicit fuel (`none` = the loop did not terminate within `fuel`
iterations).  Each iteration fetches the window `checkpoint..cursor`,
runs the page loop, then: raises if the page iterator raised and the
loop had not broken early; raises (`UnboundLocalError`) if the Python
variable `page` was never bound; breaks when the last page was empty or
the cap was not hit; otherwise narrows `cursor` to `oldest_run_date`. -/
def runWindows (fetch : Fetch) (lower : Nat) :
    Nat → Cursor → Option Nat → Option Page → List Page →
    List (Nat × Cursor) → Option WROut
  | 0, _, _, _, _, _ => none
  | fuel + 1, cursor, latest, pv, em, qs =>
    let fr := fetch cursor
    let s := processPages fr.pages 0 ⟨latest, none, true, pv, false, []⟩
    if fr.raises && !s.broke then
      some ⟨true, s.latest, em ++ s.emitted, qs ++ [(lower, cursor)]⟩
    else
      match s.pageVar with
      | none => some ⟨true, s.latest, em ++ s.emitted, qs ++ [(lower, cursor)]⟩
      | some p =>
        if p = [] || s.inLimit then
          some ⟨false, s.latest, em ++ s.emitted, qs ++ [(lower, cursor)]⟩
        else
          runWindows fetch lower fuel
            (match s.oldest with | some o => some o | none => cursor)
            s.latest (some p) (em ++ s.emitted) (qs ++ [(lower, cursor)])

/-- One parent's full `workflow_runs` extraction (lines 139-187), started
with `cursor = "*"`, `latest_run_date = None`, `page` unbound. -/
def extractParent (fetch : Fetch) (lower fuel : Nat) : Option WROut :=
  runWindows fetch lower fuel none none none [] []

/-- The in-memory `checkpoints` mapping of a resource
(`dlt.current.resource_state().setdefault("checkpoints", {})`). -/
abbrev CP := String → Option Nat

/-- `checkpoints.get(repo_full_name, start_date)`. -/
def cpGet (cps : CP) (r : String) (sd : Nat) : Nat := (cps r).getD sd

/-- `checkpoints[repo_full_name] = w`. -/
def cpSet (cps : CP) (r : String) (w : Nat) : CP :=
  fun k => if k = r then some w else cps k

/-- Observable events of a run, in order: a page yielded downstream for a
repository, or a checkpoint commit for a repository. -/
inductive Event where
  | yielded (repo : String) (p : Page)
  | committed (repo : String) (w : Nat)
deriving DecidableEq, Repr

/-- The checkpoint update after one parent (lines 189-194 resp. 106-111):
written only when no exception was caught and a latest date was seen. -/
def commitOf (cps : CP) (r : String) (out : WROut) : CP :=
  if out.failed then cps
  else
    match out.latest with
    | some w => cpSet cps r w
    | none => cps

/-- The event trace one parent contributes: its yielded pages in order,
then its checkpoint commit when one happens. -/
def eventsOf (r : String) (out : WROut) : List Event :=
  out.emitted.map (Event.yielded r) ++
    (if out.failed then []
     else
       match out.latest with
       | some w => [Event.committed r w]
       | none => [])

/-- A fetcher family: repository full name and window lower bound to the
per-window fetcher. -/
abbrev RepoFetch := String → Nat → Fetch

/-- Processing of one repository inside `workflow_runs` (lines 135-200):
read the checkpoint, extract, then commit-or-leave the checkpoint; the
`except` handler turns any exception into a recorded failure. -/
def wrStep (F : RepoFetch) (sd fuel : Nat) (cps : CP) (r : String) :
    Option (CP × List Event) :=
  (extractParent (F r (cpGet cps r sd)) (cpGet cps r sd) fuel).map
    fun out => (commitOf cps r out, eventsOf r out)

/-- The `for repository in repositories` driver loop of `workflow_runs`:
parents processed sequentially, each isolated by the `try/except`.
`none` means some parent's window loop exceeded the fuel. -/
def wrRun (F : RepoFetch) (sd fuel : Nat) :
    List String → CP → Option (CP × List Event)
  | [], cps => some (cps, [])
  | r :: rest, cps =>
    match wrStep F sd fuel cps r with
    | none => none
    | some (cps₁, ev₁) =>
      match wrRun F sd fuel rest cps₁ with
      | none => none
      | some (cps₂, ev₂) => some (cps₂, ev₁ ++ ev₂)

/-- The page loop of `commits` (lines 97-104): break on an empty page,
record `latest_commit_date` from the first record of the first page,
yield every page.  Returns (latest, emitted pages, broke-early). -/
def processPagesC : List Page → Option Nat → List Page →
    Option Nat × List Page × Bool
  | [], latest, em => (latest, em, false)
  | p :: rest, latest, em =>
    if p = [] then (latest, em, true)
    else processPagesC rest (latest.or (p.head?.map ApiRecord.created_at))
      (em ++ [p])

/-- One parent's `commits` extraction (lines 86-108): a single paginated
query from the checkpoint with no upper bound, no window narrowing.  The
query issued is recorded as `(lower, none)`: lower bound `since =
checkpoint`, unbounded above. -/
def commitsExtract (f : Nat → FetchResult) (lower : Nat) : WROut :=
  let fr := f lower
  let r := processPagesC fr.pages none []
  ⟨fr.raises && !r.2.2, r.1, r.2.1, [(lower, none)]⟩

/-- A `commits` fetcher family: repository and lower bound to the result
of the single query. -/
abbrev CRepoFetch := String → Nat → FetchResult

/-- Processing of one repository inside `commits` (lines 84-117). -/
def commitsStep (G : CRepoFetch) (sd : Nat) (cps : CP) (r : String) :
    CP × List Event :=
  let out := commitsExtract (G r) (cpGet cps r sd)
  (commitOf cps r out, eventsOf r out)

/-! ## A synthetic dataset-backed fetcher (for the cap-narrowing claims)

The spec's testable property quantifies over synthetic fetchers that cap
their answer at 1000 records (10 pages of 100).  We realise the class as
a fetcher backed by a fixed dataset, serving half-open windows
`[lower, cursor)` in the dataset's order, chunked into pages of 100 and
truncated to 10 pages. -/

/-- Chunk a record list into pages of 100, by fuel (structural, so that
the kernel can evaluate it). -/
def chunkAux : Nat → List ApiRecord → List Page
  | _, [] => []
  | 0, _ :: _ => []
  | fuel + 1, a :: l => ((a :: l).take 100) :: chunkAux fuel ((a :: l).drop 100)

/-- Chunk a record list into pages of 100. -/
def chunkPages (l : List ApiRecord) : List Page := chunkAux l.length l

/-- Membership of a record in the half-open window `[lower, cursor)`. -/
def inWin (lower : Nat) (c : Cursor) (r : ApiRecord) : Bool :=
  decide (lower ≤ r.created_at) &&
    match c with
    | none => true
    | some u => decide (r.created_at < u)

/-- The records of the dataset inside the window, in dataset order. -/
def windowRecs (ds : List ApiRecord) (lower : Nat) (c : Cursor) :
    List ApiRecord :=
  ds.filter (inWin lower c)

/-- The synthetic capped fetcher over a dataset: it serves the window's
records in order, 100 per page, at most 10 pages (the 1000-record cap);
an empty window yields one empty page (as the REST API does). -/
def fetchOf (ds : List ApiRecord) (lower : Nat) : Fetch := fun c =>
  ⟨(fun rs => if rs = [] then [[]] else (chunkPages rs).take 10)
      (windowRecs ds lower c),
   false⟩

/-- Reverse-chronological strict ordering of records. -/
def tsDesc (a b : ApiRecord) : Prop := b.created_at < a.created_at

instance : DecidableRel tsDesc := fun a b => by
  unfold tsDesc; infer_instance

/-- Dataset for the window-monotonicity witness: 1001 strictly
reverse-chronological records, one more than the cap, so the first
window hits the cap and a narrowing actually occurs. -/
def C6ds : List ApiRecord := (List.range 1001).map fun i => ⟨i, 2000 - i⟩

/-- The computed outcome of extracting `C6ds`: two queries issued, the
second narrowed to the oldest timestamp of the first window. -/
def C6out : WROut :=
  (extractParent (fetchOf C6ds 0) 0 3).getD ⟨true, none, [], []⟩

/-- A fetcher that ignores the window and always reports ten full-cap
pages whose oldest timestamp never moves: re-querying the "narrowed"
window returns the same answer forever. -/
def fBad : Fetch := fun _ =>
  ⟨[[⟨0, 5⟩], [⟨0, 5⟩], [⟨0, 5⟩], [⟨0, 5⟩], [⟨0, 5⟩],
    [⟨0, 5⟩], [⟨0, 5⟩], [⟨0, 5⟩], [⟨0, 5⟩], [⟨0, 5⟩]], false⟩

/-- Relation between one issued query window and the next: same lower
bound, and the new upper bound is `oldest_run_date` — the timestamp of
the LAST record served by the previous query (`page[-1]["created_at"]`
of the final page; in a narrowing iteration every page is non-empty and
fully consumed, so the last record of the concatenation IS the last
record of the last page) — strictly below the previous upper bound
whenever one existed. -/
def QRel (fetch : Fetch) (q q2 : Nat × Cursor) : Prop :=
  q2.1 = q.1 ∧ ∃ o, q2.2 = some o ∧
    ((fetch q.2).pages).flatten.getLast?.map ApiRecord.created_at = some o ∧
    (∀ u, q.2 = some u → o < u)

/-- The repository an event belongs to. -/
def eventRepo : Event → String
  | .yielded r _ => r
  | .committed r _ => r

/-- Is this event a checkpoint commit for repository `r`? -/
def isCommitOf (r : String) : Event → Bool
  | .committed r2 _ => r2 == r
  | .yielded _ _ => false

/-- No page for `r` is yielded after a checkpoint commit for `r`. -/
def noYieldAfterCommit (r : String) (ev : List Event) : Prop :=
  ∀ t1 w t2, ev = t1 ++ Event.committed r w :: t2 →
    ∀ p, Event.yielded r p ∉ t2

/-- The concrete scenario fetcher of the spec's testable property: dates
encoded as YYYYMMDD numerals.  Window `[2024-01-01, OPEN)` yields 10 full
pages — 1000 records weakly descending from 2024-06-01 down to
2024-03-15; the narrowed window `[2024-01-01, 2024-03-15)` yields 3 pages
— 250 records descending from just below 2024-03-15 down to 2024-01-10;
any other window is empty. -/
def scenFetch : Fetch := fun c =>
  match c with
  | none => ⟨chunkPages ((List.range 1000).map
      fun i => ⟨i, 20240601 - 286 * i / 999⟩), false⟩
  | some 20240315 => ⟨chunkPages ((List.range 250).map
      fun i => ⟨1000 + i, 20240314 - 204 * i / 249⟩), false⟩
  | some _ => ⟨[[]], false⟩

/-- A fetcher whose page iterator yields no page at all. -/
def fNoPages : Fetch := fun _ => ⟨[], false⟩

/-- A fetcher serving one empty page on the open window and no page at
all on every narrowed window. -/
def C8fetch : Fetch := fun c =>
  match c with
  | none => ⟨[[]], false⟩
  | some _ => ⟨[], false⟩

/-- Termination of the `workflow_runs` window loop for one parent: some
fuel makes the loop finish (with either outcome). -/
def wrTerminates (fetch : Fetch) (lower : Nat) : Prop :=
  ∃ fuel, (extractParent fetch lower fuel).isSome

/-- Concrete fetcher family for the failure-isolation witness: parent
"a" yields one record (timestamp 5), parent "b"'s iterator raises before
any page, parent "c" yields one record (timestamp 6). -/
def C4F : RepoFetch := fun r _ =>
  if r = "a" then (fun _ => ⟨[[⟨1, 5⟩]], false⟩)
  else if r = "b" then (fun _ => ⟨[], true⟩)
  else (fun _ => ⟨[[⟨2, 6⟩]], false⟩)

/-- Concrete data for the atomicity witness: one parent "x" whose
fetcher yields a single record with timestamp 8. -/
def C5F : RepoFetch := fun _ _ _ => ⟨[[⟨3, 8⟩]], false⟩

def C5out : WROut := ⟨false, some 8, [[⟨3, 8⟩]], [(0, none)]⟩

/-! ## Lemmas about the inner page loop -/

theorem or_or_some {α : Type} (a : Option α) (x : α) (b : Option α) :
    ((a.or (some x)).or b) = a.or (some x) := by
  cases a <;> rfl

theorem some_or {α : Type} (a : α) (b : Option α) : (some a).or b = some a := rfl

/-- Characterization of the page loop when every fetched page is
non-empty: no break occurs, every page is yielded, `latest` is filled
from the first record, `oldest` from the last, and `in_limit` is cleared
exactly when a page index of at least 9 was consumed. -/
theorem processPages_all (ps : List Page) (idx : Nat) (s : PageLoopState)
    (h : ∀ p ∈ ps, p ≠ []) :
    processPages ps idx s =
      { latest := s.latest.or (ps.flatten.head?.map ApiRecord.created_at)
        oldest := (ps.flatten.getLast?.map ApiRecord.created_at).or s.oldest
        inLimit := s.inLimit && (decide (ps = []) || decide (idx + ps.length ≤ 9))
        pageVar := ps.getLast?.or s.pageVar
        broke := s.broke && ps.isEmpty
        emitted := s.emitted ++ ps } := by
  induction ps generalizing idx s with
  | nil =>
    cases s with
    | mk lat old il pv br em => simp [processPages]
  | cons p rest ih =>
    have hp : p ≠ [] := h p (by simp)
    obtain ⟨hd, tl, rfl⟩ := List.exists_cons_of_ne_nil hp
    rw [processPages, if_neg hp, ih _ _ (fun q hq => h q (by simp [hq]))]
    simp only [PageLoopState.mk.injEq]
    refine ⟨?_, ?_, ?_, ?_, ?_, ?_⟩
    · simp [List.head?_append, or_or_some]
    · rw [List.flatten_cons, List.getLast?_append,
        List.getLast?_eq_getLast (hd :: tl) (by simp)]
      cases hfl : rest.flatten.getLast? <;> simp
    · rcases Nat.lt_or_ge idx 9 with h9 | h9
      · rcases List.eq_nil_or_concat rest with hre | ⟨_, _, hre⟩
        · subst hre
          have h1 : idx + (0 + 1) ≤ 9 := by omega
          simp [Nat.not_le.mpr h9, h1]
        · have hne : rest ≠ [] := by subst hre; simp
          have h1 : (idx + 1 + rest.length ≤ 9) ↔ (idx + (rest.length + 1) ≤ 9) := by
            omega
          simp [Nat.not_le.mpr h9, hne, decide_eq_decide.mpr h1]
      · have h1 : ¬(idx + (rest.length + 1) ≤ 9) := by omega
        simp [h9, h1]
    · rw [show ((hd :: tl) :: rest : List Page) = [hd :: tl] ++ rest from rfl,
        List.getLast?_append]
      simp [or_or_some]
    · simp
    · simp

/-- Once `latest_run_date` is set it is never overwritten by the page
loop (the `if latest_run_date is None` guard, line 163). -/
theorem processPages_latest_some (ps : List Page) (idx : Nat)
    (s : PageLoopState) (x : Nat) (hx : s.latest = some x) :
    (processPages ps idx s).latest = some x := by
  induction ps generalizing idx s with
  | nil => simpa [processPages] using hx
  | cons p rest ih =>
    rw [processPages]
    by_cases hp : p = []
    · simpa [hp] using hx
    · rw [if_neg hp]
      exact ih _ _ (by simp [hx, Option.or])

/-- `oldest_run_date` after the page loop is either its incoming value or
the timestamp of some fetched record. -/
theorem processPages_oldest_origin (ps : List Page) (idx : Nat)
    (s : PageLoopState) :
    (processPages ps idx s).oldest = s.oldest ∨
      ∃ r ∈ ps.flatten, (processPages ps idx s).oldest = some r.created_at := by
  induction ps generalizing idx s with
  | nil => exact Or.inl rfl
  | cons p rest ih =>
    rw [processPages]
    by_cases hp : p = []
    · exact Or.inl (by simp [hp])
    · rw [if_neg hp]
      obtain ⟨hd, tl, rfl⟩ := List.exists_cons_of_ne_nil hp
      rcases ih (idx + 1)
          { latest := s.latest.or ((hd :: tl).head?.map ApiRecord.created_at)
            oldest := (hd :: tl).getLast?.map ApiRecord.created_at
            inLimit := if 9 ≤ idx then false else s.inLimit
            pageVar := some (hd :: tl)
            broke := false
            emitted := s.emitted ++ [hd :: tl] } with hsame | ⟨r, hr, hro⟩
      · refine Or.inr ⟨(hd :: tl).getLast (by simp), ?_, ?_⟩
        · rw [List.flatten_cons]
          exact List.mem_append_left _ (List.getLast_mem _)
        · rw [hsame]
          simp [List.getLast?_eq_getLast (hd :: tl) (by simp)]
      · exact Or.inr ⟨r, by simp [hr], hro⟩

/-- `oldest_run_date` never reverts from set to unset. -/
theorem processPages_oldest_some (ps : List Page) (idx : Nat)
    (s : PageLoopState) (x : Nat) (hx : s.oldest = some x) :
    ∃ y, (processPages ps idx s).oldest = some y := by
  induction ps generalizing idx s x with
  | nil => exact ⟨x, by simpa [processPages] using hx⟩
  | cons p rest ih =>
    rw [processPages]
    by_cases hp : p = []
    · exact ⟨x, by simpa [hp] using hx⟩
    · rw [if_neg hp]
      obtain ⟨hd, tl, rfl⟩ := List.exists_cons_of_ne_nil hp
      exact ih _ _ ((hd :: tl).getLast (by simp)).created_at
        (by simp [List.getLast?_eq_getLast (hd :: tl) (by simp)])

/-- If the page loop started with `in_limit` set and unset `oldest`, and
finished with `in_limit` cleared, then `oldest` was set. -/
theorem processPages_oldest_of_inLimit_false (ps : List Page) (idx : Nat)
    (s : PageLoopState) (hil : s.inLimit = true)
    (hres : (processPages ps idx s).inLimit = false) :
    ∃ y, (processPages ps idx s).oldest = some y := by
  cases ps with
  | nil => rw [processPages] at hres; rw [hil] at hres; cases hres
  | cons p rest =>
    rw [processPages] at hres ⊢
    by_cases hp : p = []
    · rw [if_pos hp] at hres
      simp only [hp] at hres
      simp [hil] at hres
    · rw [if_neg hp] at hres ⊢
      obtain ⟨hd, tl, rfl⟩ := List.exists_cons_of_ne_nil hp
      exact processPages_oldest_some _ _ _ ((hd :: tl).getLast (by simp)).created_at
        (by simp [List.getLast?_eq_getLast (hd :: tl) (by simp)])

/-- If the fetched pages contain an empty page, the loop breaks at the
first one and leaves the loop variable `page` bound to that empty page. -/
theorem processPages_pageVar_of_mem_empty (ps : List Page) :
    ∀ (idx : Nat) (s : PageLoopState), ([] : Page) ∈ ps →
      (processPages ps idx s).pageVar = some ([] : Page) := by
  induction ps with
  | nil => intro idx s h; cases h
  | cons p rest ih =>
    intro idx s h
    rw [processPages]
    by_cases hp : p = []
    · simp [hp]
    · rw [if_neg hp]
      refine ih (idx + 1) _ ?_
      rcases List.mem_cons.mp h with h1 | h1
      · exact absurd h1.symm hp
      · exact h1

/-- Once `latest_run_date` is set, every further window iteration keeps
it (step 2b of the spec's algorithm: captured once, never overwritten). -/
theorem runWindows_latest_some (fetch : Fetch) (lower : Nat) (fuel : Nat) :
    ∀ (c : Cursor) (x : Nat) (pv : Option Page) (em : List Page)
      (qs : List (Nat × Cursor)) (out : WROut),
      runWindows fetch lower fuel c (some x) pv em qs = some out →
      out.latest = some x := by
  induction fuel with
  | zero => intro c x pv em qs out h; cases h
  | succ fuel ih =>
    intro c x pv em qs out h
    rw [runWindows] at h
    set s := processPages (fetch c).pages 0 ⟨some x, none, true, pv, false, []⟩
      with hs
    have hlat : s.latest = some x := processPages_latest_some _ _ _ _ rfl
    split at h
    · cases h; simpa using hlat
    · split at h
      · cases h; simpa using hlat
      · split at h
        · cases h; simpa using hlat
        · rw [hlat] at h
          exact ih _ _ _ _ _ _ h

/-! ## Lemmas about the synthetic capped fetcher -/

theorem chunkAux_eq (fuel₁ : Nat) : ∀ (fuel₂ : Nat) (l : List ApiRecord),
    l.length ≤ fuel₁ → l.length ≤ fuel₂ → chunkAux fuel₁ l = chunkAux fuel₂ l := by
  induction fuel₁ with
  | zero =>
    intro fuel₂ l h₁ _
    have hl : l = [] := List.eq_nil_of_length_eq_zero (Nat.le_zero.mp h₁)
    subst hl
    cases fuel₂ <;> rfl
  | succ fuel ih =>
    intro fuel₂ l h₁ h₂
    cases l with
    | nil => cases fuel₂ <;> rfl
    | cons a l =>
      cases fuel₂ with
      | zero => simp at h₂
      | succ fuel₂ =>
        simp only [List.length_cons] at h₁ h₂
        rw [chunkAux, chunkAux]
        congr 1
        exact ih fuel₂ _ (by simp only [List.length_drop, List.length_cons]; omega)
          (by simp only [List.length_drop, List.length_cons]; omega)

theorem chunkPages_cons (l : List ApiRecord) (h : l ≠ []) :
    chunkPages l = l.take 100 :: chunkPages (l.drop 100) := by
  obtain ⟨a, l2, rfl⟩ := List.exists_cons_of_ne_nil h
  show chunkAux (l2.length + 1) (a :: l2) = _
  rw [chunkAux]
  congr 1
  exact chunkAux_eq _ _ _ (by simp only [List.length_drop, List.length_cons]; omega)
    (le_refl _)

theorem chunkPages_flatten (l : List ApiRecord) : (chunkPages l).flatten = l := by
  by_cases h : l = []
  · subst h; rfl
  · have hlt : (l.drop 100).length < l.length := by
      rw [List.length_drop]
      have : 0 < l.length := List.length_pos.mpr h
      omega
    rw [chunkPages_cons l h, List.flatten_cons, chunkPages_flatten (l.drop 100),
      List.take_append_drop]
termination_by l.length

theorem chunkPages_ne_nil (l : List ApiRecord) (p : Page)
    (hp : p ∈ chunkPages l) : p ≠ [] := by
  by_cases h : l = []
  · subst h; cases hp
  · have hlt : (l.drop 100).length < l.length := by
      rw [List.length_drop]
      have : 0 < l.length := List.length_pos.mpr h
      omega
    rw [chunkPages_cons l h] at hp
    rcases List.mem_cons.mp hp with h1 | h1
    · subst h1
      simp [List.take_eq_nil_iff, h]
    · exact chunkPages_ne_nil (l.drop 100) p h1
termination_by l.length

theorem flatten_take_chunkPages (k : Nat) : ∀ l : List ApiRecord,
    ((chunkPages l).take k).flatten = l.take (100 * k) := by
  induction k with
  | zero => intro l; simp
  | succ k ih =>
    intro l
    by_cases h : l = []
    · subst h; simp [show chunkPages [] = [] from rfl]
    · rw [chunkPages_cons l h, List.take_succ_cons, List.flatten_cons,
        ih (l.drop 100), show 100 * (k + 1) = 100 + 100 * k by ring,
        List.take_add]

theorem chunkPages_eq_nil_iff (l : List ApiRecord) :
    chunkPages l = [] ↔ l = [] := by
  constructor
  · intro h
    by_contra hne
    rw [chunkPages_cons l hne] at h
    cases h
  · intro h; subst h; rfl

theorem chunkPages_length_le (k : Nat) : ∀ l : List ApiRecord,
    (chunkPages l).length ≤ k ↔ l.length ≤ 100 * k := by
  induction k with
  | zero =>
    intro l
    simp only [Nat.le_zero, List.length_eq_zero, Nat.mul_zero,
      chunkPages_eq_nil_iff]
  | succ k ih =>
    intro l
    by_cases h : l = []
    · subst h; simp [show chunkPages [] = [] from rfl]
    · rw [chunkPages_cons l h]
      simp only [List.length_cons, Nat.add_le_add_iff_right, ih (l.drop 100),
        List.length_drop]
      omega

/-! ## Order lemmas for strictly reverse-chronological datasets -/

/-- In a strictly descending list, the last element has the minimal
timestamp. -/
theorem getLast_ts_le (T : List ApiRecord) (h : T ≠ [])
    (hp : List.Pairwise tsDesc T) :
    ∀ a ∈ T, (T.getLast h).created_at ≤ a.created_at := by
  intro a ha
  have hp2 : List.Pairwise tsDesc (T.dropLast ++ [T.getLast h]) := by
    rw [List.dropLast_append_getLast h]; exact hp
  have hcross := (List.pairwise_append.mp hp2).2.2
  have ha2 : a ∈ T.dropLast ++ [T.getLast h] := by
    rw [List.dropLast_append_getLast h]; exact ha
  rcases List.mem_append.mp ha2 with h1 | h1
  · exact le_of_lt (hcross a h1 (T.getLast h) (by simp))
  · simp only [List.mem_singleton] at h1
    rw [h1]

/-- Filtering a strictly descending list below the timestamp of the last
element of its length-`n` prefix keeps exactly the tail after that
prefix. -/
theorem filter_lt_getLast_eq_drop (xs : List ApiRecord)
    (hp : List.Pairwise tsDesc xs) (n : Nat) (hn : xs.take n ≠ []) :
    xs.filter
        (fun r => decide (r.created_at < ((xs.take n).getLast hn).created_at)) =
      xs.drop n := by
  have hx : xs.take n ++ xs.drop n = xs := List.take_append_drop n xs
  have hpx : List.Pairwise tsDesc (xs.take n ++ xs.drop n) := by
    rw [hx]; exact hp
  obtain ⟨hpT, hpD, hcross⟩ := List.pairwise_append.mp hpx
  set o := ((xs.take n).getLast hn).created_at with hodef
  have hT : (xs.take n).filter (fun r => decide (r.created_at < o)) = [] := by
    rw [List.filter_eq_nil_iff]
    intro a ha
    have h1 := getLast_ts_le (xs.take n) hn hpT a ha
    rw [← hodef] at h1
    simp only [decide_eq_true_eq]
    omega
  have hD : (xs.drop n).filter (fun r => decide (r.created_at < o)) =
      xs.drop n := by
    rw [List.filter_eq_self]
    intro b hb
    have h1 := hcross _ (List.getLast_mem hn) b hb
    simp only [tsDesc] at h1
    rw [← hodef] at h1
    simpa using h1
  calc xs.filter (fun r => decide (r.created_at < o))
      = (xs.take n ++ xs.drop n).filter (fun r => decide (r.created_at < o)) := by
        rw [hx]
    _ = xs.drop n := by rw [List.filter_append, hT, hD, List.nil_append]

/-- Narrowing the window to an upper bound below the current one filters
the current window's records. -/
theorem windowRecs_narrow (ds : List ApiRecord) (lower : Nat) (c : Cursor)
    (o : Nat) (ho : ∀ u, c = some u → o < u) :
    windowRecs ds lower (some o) =
      (windowRecs ds lower c).filter (fun r => decide (r.created_at < o)) := by
  unfold windowRecs
  rw [List.filter_filter]
  apply List.filter_congr
  intro r _
  by_cases hlt : r.created_at < o
  · cases c with
    | none => simp [inWin, hlt]
    | some u =>
      have hu : o < u := ho u rfl
      have : r.created_at < u := by omega
      simp [inWin, hlt, this]
  · cases c <;> simp [inWin, hlt]

/-! ## One-iteration step lemmas for the window loop -/

/-- One window iteration, exception branch: the page iterator raised and
the page loop had not broken early — the `except` handler records a
failure. -/
theorem runWindows_step_err (fetch : Fetch) (lower fuel : Nat) (c : Cursor)
    (latest : Option Nat) (pv : Option Page) (em : List Page)
    (qs : List (Nat × Cursor)) (s : PageLoopState)
    (hsdef : processPages (fetch c).pages 0 ⟨latest, none, true, pv, false, []⟩ = s)
    (hr : ((fetch c).raises && !s.broke) = true) :
    runWindows fetch lower (fuel + 1) c latest pv em qs =
      some ⟨true, s.latest, em ++ s.emitted, qs ++ [(lower, c)]⟩ := by
  subst hsdef
  simp only [runWindows]
  rw [if_pos hr]

/-- One window iteration, `UnboundLocalError` branch: the fetcher yielded
no page at all, so line 179 reads the unbound variable `page`. -/
theorem runWindows_step_unbound (fetch : Fetch) (lower fuel : Nat) (c : Cursor)
    (latest : Option Nat) (pv : Option Page) (em : List Page)
    (qs : List (Nat × Cursor)) (s : PageLoopState)
    (hsdef : processPages (fetch c).pages 0 ⟨latest, none, true, pv, false, []⟩ = s)
    (hr : ((fetch c).raises && !s.broke) = false)
    (hpv : s.pageVar = none) :
    runWindows fetch lower (fuel + 1) c latest pv em qs =
      some ⟨true, s.latest, em ++ s.emitted, qs ++ [(lower, c)]⟩ := by
  subst hsdef
  simp only [runWindows]
  rw [if_neg (by rw [hr]; simp)]
  split
  · rfl
  · next p heq => rw [heq] at hpv; cases hpv

/-- One window iteration, normal break: the last page was empty or the
cap was not hit (`if not page or in_limit: break`, line 179). -/
theorem runWindows_step_break (fetch : Fetch) (lower fuel : Nat) (c : Cursor)
    (latest : Option Nat) (pv : Option Page) (em : List Page)
    (qs : List (Nat × Cursor)) (s : PageLoopState) (p : Page)
    (hsdef : processPages (fetch c).pages 0 ⟨latest, none, true, pv, false, []⟩ = s)
    (hr : ((fetch c).raises && !s.broke) = false)
    (hpv : s.pageVar = some p)
    (hbrk : (decide (p = []) || s.inLimit) = true) :
    runWindows fetch lower (fuel + 1) c latest pv em qs =
      some ⟨false, s.latest, em ++ s.emitted, qs ++ [(lower, c)]⟩ := by
  subst hsdef
  simp only [runWindows]
  rw [if_neg (by rw [hr]; simp)]
  split
  · next heq => rw [heq] at hpv; cases hpv
  · next p2 heq =>
    rw [heq] at hpv
    injection hpv with hp2
    subst hp2
    rw [if_pos hbrk]

/-- One window iteration, narrowing: the cap was hit on a non-empty
window, so the cursor is pulled back to `oldest_run_date` and the loop
repeats (lines 182-187). -/
theorem runWindows_step_continue (fetch : Fetch) (lower fuel : Nat)
    (c : Cursor) (latest : Option Nat) (pv : Option Page) (em : List Page)
    (qs : List (Nat × Cursor)) (s : PageLoopState) (p : Page) (o : Nat)
    (hsdef : processPages (fetch c).pages 0 ⟨latest, none, true, pv, false, []⟩ = s)
    (hr : ((fetch c).raises && !s.broke) = false)
    (hpv : s.pageVar = some p)
    (hbrk : (decide (p = []) || s.inLimit) = false)
    (ho : s.oldest = some o) :
    runWindows fetch lower (fuel + 1) c latest pv em qs =
      runWindows fetch lower fuel (some o) s.latest (some p)
        (em ++ s.emitted) (qs ++ [(lower, c)]) := by
  subst hsdef
  simp only [runWindows]
  rw [if_neg (by rw [hr]; simp)]
  split
  · next heq => rw [heq] at hpv; cases hpv
  · next p2 heq =>
    rw [heq] at hpv
    injection hpv with hp2
    subst hp2
    rw [if_neg (by rw [hbrk]; simp), ho]

/-- Core invariant of the window-narrowing loop over the synthetic capped
fetcher on a strictly reverse-chronological dataset: starting from any
cursor, the loop terminates without failure and yields pages whose
concatenation is exactly the current window's records, in order. -/
theorem runWindows_fetchOf (ds : List ApiRecord) (lower : Nat)
    (hs : List.Pairwise tsDesc ds) :
    ∀ (fuel : Nat) (c : Cursor) (latest : Option Nat) (pv : Option Page)
      (em : List Page) (qs : List (Nat × Cursor)),
      (windowRecs ds lower c).length < fuel →
      ∃ ps qs2,
        runWindows (fetchOf ds lower) lower fuel c latest pv em qs =
          some ⟨false,
            latest.or ((windowRecs ds lower c).head?.map ApiRecord.created_at),
            em ++ ps, qs ++ qs2⟩ ∧
        ps.flatten = windowRecs ds lower c := by
  intro fuel
  induction fuel with
  | zero => intro c latest pv em qs hlt; omega
  | succ fuel ih =>
    intro c latest pv em qs hlt
    by_cases hrem : windowRecs ds lower c = []
    · have hfetch : fetchOf ds lower c = ⟨[[]], false⟩ := by
        simp [fetchOf, hrem]
      have hsdef : processPages (fetchOf ds lower c).pages 0
          ⟨latest, none, true, pv, false, []⟩ =
          (⟨latest, none, true, some [], true, []⟩ : PageLoopState) := by
        rw [hfetch]
        rfl
      refine ⟨[], [(lower, c)], ?_, by simp [hrem]⟩
      rw [runWindows_step_break (fetchOf ds lower) lower fuel c latest pv em qs
        _ [] hsdef (by simp [hfetch]) rfl (by simp)]
      simp [hrem, Option.or_none]
    · have hrem_pw : List.Pairwise tsDesc (windowRecs ds lower c) := by
        unfold windowRecs
        exact hs.filter _
      obtain ⟨r0, rem2, hremc⟩ := List.exists_cons_of_ne_nil hrem
      have hfetch : fetchOf ds lower c =
          ⟨(chunkPages (windowRecs ds lower c)).take 10, false⟩ := by
        simp [fetchOf, hrem]
      have hne : ∀ p ∈ (chunkPages (windowRecs ds lower c)).take 10, p ≠ [] :=
        fun p hp => chunkPages_ne_nil _ p (List.take_subset _ _ hp)
      have hpagesne : (chunkPages (windowRecs ds lower c)).take 10 ≠ [] := by
        rw [chunkPages_cons _ hrem]
        simp
      have hflat : ((chunkPages (windowRecs ds lower c)).take 10).flatten =
          (windowRecs ds lower c).take 1000 := by
        have h1 := flatten_take_chunkPages 10 (windowRecs ds lower c)
        simpa using h1
      have hhead : ((windowRecs ds lower c).take 1000).head? = some r0 := by
        rw [hremc]
        rfl
      have hplast : ((chunkPages (windowRecs ds lower c)).take 10).getLast? =
          some (((chunkPages (windowRecs ds lower c)).take 10).getLast hpagesne) :=
        List.getLast?_eq_getLast _ _
      have hplastne : ((chunkPages (windowRecs ds lower c)).take 10).getLast
          hpagesne ≠ [] := hne _ (List.getLast_mem hpagesne)
      have hsdef : processPages (fetchOf ds lower c).pages 0
          ⟨latest, none, true, pv, false, []⟩ =
          (⟨latest.or (some r0.created_at),
            ((windowRecs ds lower c).take 1000).getLast?.map ApiRecord.created_at,
            decide (((chunkPages (windowRecs ds lower c)).take 10).length ≤ 9),
            some (((chunkPages (windowRecs ds lower c)).take 10).getLast hpagesne),
            false,
            (chunkPages (windowRecs ds lower c)).take 10⟩ : PageLoopState) := by
        rw [hfetch]
        rw [processPages_all _ _ _ hne]
        simp only [PageLoopState.mk.injEq]
        refine ⟨?_, ?_, ?_, ?_, ?_, ?_⟩
        · rw [hflat, hhead]
          rfl
        · rw [hflat]
          exact Option.or_none
        · rw [show (decide ((chunkPages (windowRecs ds lower c)).take 10 = []))
              = false by simp [hpagesne]]
          rw [show (decide (0 +
              ((chunkPages (windowRecs ds lower c)).take 10).length ≤ 9))
              = decide (((chunkPages (windowRecs ds lower c)).take 10).length ≤ 9)
            from decide_eq_decide.mpr (by omega)]
          simp
        · rw [hplast]
          exact some_or _ _
        · simp
        · simp
      by_cases h9 : ((chunkPages (windowRecs ds lower c)).take 10).length ≤ 9
      · have hlen : (windowRecs ds lower c).length ≤ 900 := by
          have h2 : (chunkPages (windowRecs ds lower c)).length ≤ 9 := by
            have h3 := List.length_take 10 (chunkPages (windowRecs ds lower c))
            omega
          have h4 := (chunkPages_length_le 9 _).mp h2
          omega
        have htk : (windowRecs ds lower c).take 1000 = windowRecs ds lower c :=
          List.take_of_length_le (by omega)
        refine ⟨(chunkPages (windowRecs ds lower c)).take 10, [(lower, c)], ?_,
          by rw [hflat, htk]⟩
        rw [runWindows_step_break (fetchOf ds lower) lower fuel c latest pv em qs
          _ _ hsdef (by simp [hfetch]) rfl
          (by simp only [Bool.or_eq_true, decide_eq_true_eq]; right; exact h9)]
        dsimp only
        rw [hremc]
        rfl
      · have hlen : 900 < (windowRecs ds lower c).length := by
          by_contra hcon
          push_neg at hcon
          have h2 := (chunkPages_length_le 9 (windowRecs ds lower c)).mpr
            (by omega)
          have h3 := List.length_take 10 (chunkPages (windowRecs ds lower c))
          omega
        have hTne : (windowRecs ds lower c).take 1000 ≠ [] := by
          rw [hremc]
          simp
        have hgl : ((windowRecs ds lower c).take 1000).getLast? =
            some (((windowRecs ds lower c).take 1000).getLast hTne) :=
          List.getLast?_eq_getLast _ _
        have ho : ∀ u, c = some u →
            (((windowRecs ds lower c).take 1000).getLast hTne).created_at < u := by
          intro u hu
          subst hu
          have hmem : ((windowRecs ds lower (some u)).take 1000).getLast hTne ∈
              windowRecs ds lower (some u) :=
            List.take_subset _ _ (List.getLast_mem hTne)
          have hiw := (List.mem_filter.mp hmem).2
          simp only [inWin, Bool.and_eq_true, decide_eq_true_eq] at hiw
          exact hiw.2
        have hnarrow : windowRecs ds lower
            (some ((((windowRecs ds lower c).take 1000).getLast hTne).created_at)) =
            (windowRecs ds lower c).drop 1000 := by
          rw [windowRecs_narrow ds lower c _ ho]
          exact filter_lt_getLast_eq_drop _ hrem_pw 1000 hTne
        have hlt2 : (windowRecs ds lower
            (some ((((windowRecs ds lower c).take 1000).getLast
              hTne).created_at))).length < fuel := by
          rw [hnarrow, List.length_drop]
          omega
        obtain ⟨ps2, qs3, heq, hflat2⟩ := ih
          (some ((((windowRecs ds lower c).take 1000).getLast hTne).created_at))
          (latest.or (some r0.created_at))
          (some (((chunkPages (windowRecs ds lower c)).take 10).getLast hpagesne))
          (em ++ (chunkPages (windowRecs ds lower c)).take 10)
          (qs ++ [(lower, c)]) hlt2
        rw [hnarrow] at hflat2
        refine ⟨(chunkPages (windowRecs ds lower c)).take 10 ++ ps2,
          (lower, c) :: qs3, ?_, ?_⟩
        · rw [runWindows_step_continue (fetchOf ds lower) lower fuel c latest pv
            em qs _ _
            (((windowRecs ds lower c).take 1000).getLast hTne).created_at hsdef
            (by simp [hfetch]) rfl
            (by
              rw [Bool.or_eq_false_iff]
              exact ⟨by simp [hplastne],
                by simp only [decide_eq_false_iff_not]; exact h9⟩)
            (by dsimp only; rw [hgl]; simp)]
          dsimp only
          rw [heq, hnarrow, or_or_some, hremc]
          simp [List.append_assoc]
        · rw [List.flatten_append, hflat, hflat2]
          exact List.take_append_drop _ _

/-! ## Termination for window-respecting fetchers -/

/-- With a window-respecting fetcher — every record returned for a
narrowed window `[lower, u)` has timestamp strictly below `u` — the loop
terminates from any narrowed cursor once the fuel exceeds the cursor
value: each narrowing strictly decreases the upper bound. -/
theorem runWindows_isSome_of_windowed (fetch : Fetch) (lower : Nat)
    (Hw : ∀ u r, r ∈ ((fetch (some u)).pages).flatten → r.created_at < u) :
    ∀ (fuel u : Nat), u < fuel → ∀ (latest : Option Nat) (pv : Option Page)
      (em : List Page) (qs : List (Nat × Cursor)),
      (runWindows fetch lower fuel (some u) latest pv em qs).isSome := by
  intro fuel
  induction fuel with
  | zero => intro u h; omega
  | succ fuel ih =>
    intro u hu latest pv em qs
    set s := processPages (fetch (some u)).pages 0
      ⟨latest, none, true, pv, false, []⟩ with hsdef
    by_cases hr : ((fetch (some u)).raises && !s.broke) = true
    · rw [runWindows_step_err fetch lower fuel (some u) latest pv em qs s
        hsdef.symm hr]
      rfl
    · have hr2 : ((fetch (some u)).raises && !s.broke) = false :=
        Bool.eq_false_iff.mpr hr
      rcases hpv : s.pageVar with _ | p
      · rw [runWindows_step_unbound fetch lower fuel (some u) latest pv em qs s
          hsdef.symm hr2 hpv]
        rfl
      · by_cases hbrk : (decide (p = []) || s.inLimit) = true
        · rw [runWindows_step_break fetch lower fuel (some u) latest pv em qs s
            p hsdef.symm hr2 hpv hbrk]
          rfl
        · have hbrk2 : (decide (p = []) || s.inLimit) = false :=
            Bool.eq_false_iff.mpr hbrk
          have hil : s.inLimit = false :=
            (Bool.or_eq_false_iff.mp hbrk2).2
          obtain ⟨o, ho⟩ := processPages_oldest_of_inLimit_false
            (fetch (some u)).pages 0 ⟨latest, none, true, pv, false, []⟩ rfl
            (by rw [← hsdef]; exact hil)
          rw [← hsdef] at ho
          rcases processPages_oldest_origin (fetch (some u)).pages 0
            ⟨latest, none, true, pv, false, []⟩ with hsame | ⟨r, hrmem, hro⟩
          · rw [← hsdef, ho] at hsame; cases hsame
          · rw [← hsdef, ho] at hro
            injection hro with ho2
            have hlt : o < u := by rw [ho2]; exact Hw u r hrmem
            rw [runWindows_step_continue fetch lower fuel (some u) latest pv em
              qs s p o hsdef.symm hr2 hpv hbrk2 ho]
            exact ih o (by omega) _ _ _ _

/-- With a window-respecting fetcher, the whole extraction of one parent
terminates: some fuel suffices. -/
theorem extractParent_terminates_of_windowed (fetch : Fetch) (lower : Nat)
    (Hw : ∀ u r, r ∈ ((fetch (some u)).pages).flatten → r.created_at < u) :
    ∃ fuel, (extractParent fetch lower fuel).isSome := by
  unfold extractParent
  set s := processPages (fetch none).pages 0
    ⟨none, none, true, none, false, []⟩ with hsdef
  by_cases hr : ((fetch none).raises && !s.broke) = true
  · exact ⟨1, by
      rw [runWindows_step_err fetch lower 0 none none none [] [] s
        hsdef.symm hr]
      rfl⟩
  · have hr2 : ((fetch none).raises && !s.broke) = false :=
      Bool.eq_false_iff.mpr hr
    rcases hpv : s.pageVar with _ | p
    · exact ⟨1, by
        rw [runWindows_step_unbound fetch lower 0 none none none [] [] s
          hsdef.symm hr2 hpv]
        rfl⟩
    · by_cases hbrk : (decide (p = []) || s.inLimit) = true
      · exact ⟨1, by
          rw [runWindows_step_break fetch lower 0 none none none [] [] s p
            hsdef.symm hr2 hpv hbrk]
          rfl⟩
      · have hbrk2 : (decide (p = []) || s.inLimit) = false :=
          Bool.eq_false_iff.mpr hbrk
        have hil : s.inLimit = false := (Bool.or_eq_false_iff.mp hbrk2).2
        obtain ⟨o, ho⟩ := processPages_oldest_of_inLimit_false
          (fetch none).pages 0 ⟨none, none, true, none, false, []⟩ rfl
          (by rw [← hsdef]; exact hil)
        rw [← hsdef] at ho
        refine ⟨(o + 1) + 1, ?_⟩
        rw [runWindows_step_continue fetch lower (o + 1) none none none [] []
          s p o hsdef.symm hr2 hpv hbrk2 ho]
        exact runWindows_isSome_of_windowed fetch lower Hw (o + 1) o
          (by omega) _ _ _ _

/-! ## A fetcher that defeats termination -/


theorem runWindows_fBad_none :
    ∀ (fuel : Nat) (c : Cursor) (latest : Option Nat) (pv : Option Page)
      (em : List Page) (qs : List (Nat × Cursor)),
      runWindows fBad 0 fuel c latest pv em qs = none := by
  intro fuel
  induction fuel with
  | zero => intro c latest pv em qs; rfl
  | succ fuel ih =>
    intro c latest pv em qs
    have hsdef : processPages (fBad c).pages 0
        ⟨latest, none, true, pv, false, []⟩ =
        (⟨latest.or (some 5), some 5, false, some [⟨0, 5⟩], false,
          (fBad c).pages⟩ : PageLoopState) := by
      show processPages
        [[⟨0, 5⟩], [⟨0, 5⟩], [⟨0, 5⟩], [⟨0, 5⟩], [⟨0, 5⟩],
         [⟨0, 5⟩], [⟨0, 5⟩], [⟨0, 5⟩], [⟨0, 5⟩], [⟨0, 5⟩]] 0
        ⟨latest, none, true, pv, false, []⟩ = _
      simp [processPages, or_or_some]
      rfl
    rw [runWindows_step_continue fBad 0 fuel c latest pv em qs _ [⟨0, 5⟩] 5
      hsdef rfl rfl (by simp) rfl]
    exact ih _ _ _ _ _

/-! ## The sequence of issued queries -/


/-- Whenever the loop completes (success or failure), the issued queries
are the initial window followed by a chain of strictly narrowing
windows, all with the same lower bound. -/
theorem runWindows_queries_chain (fetch : Fetch) (lower : Nat)
    (Hw : ∀ u r, r ∈ ((fetch (some u)).pages).flatten → r.created_at < u) :
    ∀ (fuel : Nat) (c : Cursor) (latest : Option Nat) (pv : Option Page)
      (em : List Page) (qs : List (Nat × Cursor)) (out : WROut),
      runWindows fetch lower fuel c latest pv em qs = some out →
      ∃ qs2, out.queries = qs ++ (lower, c) :: qs2 ∧
        List.Chain' (QRel fetch) ((lower, c) :: qs2) ∧
        ∀ q ∈ qs2, q.1 = lower := by
  intro fuel
  induction fuel with
  | zero => intro c latest pv em qs out h; cases h
  | succ fuel ih =>
    intro c latest pv em qs out h
    set s := processPages (fetch c).pages 0
      ⟨latest, none, true, pv, false, []⟩ with hsdef
    by_cases hr : ((fetch c).raises && !s.broke) = true
    · rw [runWindows_step_err fetch lower fuel c latest pv em qs s
        hsdef.symm hr] at h
      injection h with h2
      subst h2
      exact ⟨[], by simp, List.chain'_singleton _, by simp⟩
    · have hr2 : ((fetch c).raises && !s.broke) = false :=
        Bool.eq_false_iff.mpr hr
      rcases hpv : s.pageVar with _ | p
      · rw [runWindows_step_unbound fetch lower fuel c latest pv em qs s
          hsdef.symm hr2 hpv] at h
        injection h with h2
        subst h2
        exact ⟨[], by simp, List.chain'_singleton _, by simp⟩
      · by_cases hbrk : (decide (p = []) || s.inLimit) = true
        · rw [runWindows_step_break fetch lower fuel c latest pv em qs s p
            hsdef.symm hr2 hpv hbrk] at h
          injection h with h2
          subst h2
          exact ⟨[], by simp, List.chain'_singleton _, by simp⟩
        · have hbrk2 : (decide (p = []) || s.inLimit) = false :=
            Bool.eq_false_iff.mpr hbrk
          have hil : s.inLimit = false := (Bool.or_eq_false_iff.mp hbrk2).2
          have hpne : p ≠ [] := by
            intro hcon
            rw [hcon] at hbrk2
            simp at hbrk2
          obtain ⟨o, ho⟩ := processPages_oldest_of_inLimit_false
            (fetch c).pages 0 ⟨latest, none, true, pv, false, []⟩ rfl
            (by rw [← hsdef]; exact hil)
          rw [← hsdef] at ho
          have hne : ∀ q ∈ (fetch c).pages, q ≠ [] := by
            intro q hq hqe
            subst hqe
            have h2 := processPages_pageVar_of_mem_empty (fetch c).pages 0
              ⟨latest, none, true, pv, false, []⟩ hq
            rw [← hsdef, hpv] at h2
            injection h2 with h3
            exact hpne h3
          have hogl : ((fetch c).pages).flatten.getLast?.map
              ApiRecord.created_at = some o := by
            have h2 : s.oldest = (((fetch c).pages).flatten.getLast?.map
                ApiRecord.created_at).or none := by
              rw [hsdef, processPages_all _ _ _ hne]
            rw [Option.or_none] at h2
            rw [← h2, ho]
          obtain ⟨rl, hrl1, hrl2⟩ := Option.map_eq_some'.mp hogl
          have hrlmem : rl ∈ ((fetch c).pages).flatten :=
            List.mem_of_mem_getLast? hrl1
          rw [runWindows_step_continue fetch lower fuel c latest pv em qs s
            p o hsdef.symm hr2 hpv hbrk2 ho] at h
          obtain ⟨qs2, hq, hchain, hfst⟩ := ih (some o) s.latest (some p)
            (em ++ s.emitted) (qs ++ [(lower, c)]) out h
          refine ⟨(lower, some o) :: qs2, ?_, ?_, ?_⟩
          · rw [hq]
            simp [List.append_assoc]
          · rw [List.chain'_cons]
            refine ⟨⟨rfl, o, rfl, hogl, ?_⟩, hchain⟩
            intro u hu
            subst hu
            rw [← hrl2]
            exact Hw u rl hrlmem
          · intro q hq2
            rcases List.mem_cons.mp hq2 with h1 | h1
            · rw [h1]
            · exact hfst q h1

/-! ## The commits page loop -/

/-- Characterization of the `commits` page loop: it yields exactly the
pages up to (excluding) the first empty one, takes the watermark from
the first record of the first page, and "breaks" exactly when some
yielded-or-inspected page was empty. -/
theorem processPagesC_spec (ps : List Page) :
    ∀ (latest : Option Nat) (em : List Page),
      processPagesC ps latest em =
        (latest.or (((ps.head?.getD []).head?).map ApiRecord.created_at),
         em ++ ps.takeWhile (fun p => !p.isEmpty),
         ps.any List.isEmpty) := by
  induction ps with
  | nil => intro latest em; simp [processPagesC, Option.or_none]
  | cons p rest ih =>
    intro latest em
    rw [processPagesC]
    by_cases hp : p = []
    · subst hp
      rw [if_pos rfl]
      simp [Option.or_none, List.takeWhile_cons]
    · rw [if_neg hp, ih]
      obtain ⟨hd, tl, rfl⟩ := List.exists_cons_of_ne_nil hp
      refine Prod.ext ?_ (Prod.ext ?_ ?_)
      · show (latest.or (some hd.created_at)).or _ = latest.or (some hd.created_at)
        exact or_or_some _ _ _
      · show (em ++ [hd :: tl]) ++ _ = em ++ _
        rw [List.takeWhile_cons]
        simp
      · show rest.any List.isEmpty = ((hd :: tl) :: rest).any List.isEmpty
        simp

/-! ## Driver-level lemmas -/


theorem eventsOf_repo (r : String) (out : WROut) :
    ∀ e ∈ eventsOf r out, eventRepo e = r := by
  intro e he
  unfold eventsOf at he
  rcases List.mem_append.mp he with h1 | h1
  · obtain ⟨p, _, rfl⟩ := List.mem_map.mp h1
    rfl
  · split at h1
    · cases h1
    · split at h1
      · rcases List.mem_singleton.mp h1 with rfl
        rfl
      · cases h1

theorem eventsOf_commit_mem (r : String) (out : WROut) (w : Nat) :
    Event.committed r w ∈ eventsOf r out ↔
      (out.failed = false ∧ out.latest = some w) := by
  unfold eventsOf
  constructor
  · intro h
    rcases List.mem_append.mp h with h1 | h1
    · obtain ⟨p, _, hpe⟩ := List.mem_map.mp h1
      cases hpe
    · split at h1
      · cases h1
      · next hfail =>
        split at h1
        · next w2 hlat =>
          rcases List.mem_singleton.mp h1 with heq
          injection heq with _ hw
          subst hw
          exact ⟨by simpa using hfail, hlat⟩
        · cases h1
  · rintro ⟨hfail, hlat⟩
    rw [hfail]  -- reduce the if: failed = false
    refine List.mem_append_right _ ?_
    simp [hlat]

theorem commitOf_frame (cps : CP) (r : String) (out : WROut) (k : String)
    (hk : k ≠ r) : commitOf cps r out k = cps k := by
  unfold commitOf
  split
  · rfl
  · cases hl : out.latest with
    | none => rfl
    | some w => simp [cpSet, hk]

/-- Inversion of one repository's processing step. -/
theorem wrStep_inv (F : RepoFetch) (sd fuel : Nat) (cps : CP) (r : String)
    (cps₁ : CP) (ev₁ : List Event)
    (h : wrStep F sd fuel cps r = some (cps₁, ev₁)) :
    ∃ out, extractParent (F r (cpGet cps r sd)) (cpGet cps r sd) fuel =
        some out ∧
      cps₁ = commitOf cps r out ∧ ev₁ = eventsOf r out := by
  unfold wrStep at h
  cases hx : extractParent (F r (cpGet cps r sd)) (cpGet cps r sd) fuel with
  | none => rw [hx] at h; cases h
  | some out =>
    rw [hx] at h
    injection h with h2
    refine ⟨out, rfl, ?_, ?_⟩
    · exact congrArg Prod.fst h2.symm
    · exact congrArg Prod.snd h2.symm

/-- Inversion of the driver loop on a cons. -/
theorem wrRun_cons_inv (F : RepoFetch) (sd fuel : Nat) (r0 : String)
    (rest : List String) (cps cps2 : CP) (ev : List Event)
    (h : wrRun F sd fuel (r0 :: rest) cps = some (cps2, ev)) :
    ∃ cps₁ ev₁ ev₂, wrStep F sd fuel cps r0 = some (cps₁, ev₁) ∧
      wrRun F sd fuel rest cps₁ = some (cps2, ev₂) ∧ ev = ev₁ ++ ev₂ := by
  unfold wrRun at h
  split at h
  · cases h
  · next cpsa eva hx =>
    split at h
    · cases h
    · next cpsb evb hy =>
      injection h with h2
      have hc : cpsb = cps2 := congrArg Prod.fst h2
      have he : eva ++ evb = ev := congrArg Prod.snd h2
      subst hc
      exact ⟨cpsa, eva, evb, hx, hy, he.symm⟩

/-- Repositories not in the processed list are untouched: their
checkpoint entry is unchanged and no event mentions them. -/
theorem wrRun_frame (F : RepoFetch) (sd fuel : Nat) :
    ∀ (repos : List String) (cps cps2 : CP) (ev : List Event) (r : String),
      r ∉ repos → wrRun F sd fuel repos cps = some (cps2, ev) →
      cps2 r = cps r ∧ ∀ e ∈ ev, eventRepo e ≠ r := by
  intro repos
  induction repos with
  | nil =>
    intro cps cps2 ev r _ h
    injection h with h2
    have hc : cps = cps2 := congrArg Prod.fst h2
    have he : ([] : List Event) = ev := congrArg Prod.snd h2
    subst hc
    subst he
    exact ⟨rfl, by simp⟩
  | cons r0 rest ih =>
    intro cps cps2 ev r hr h
    obtain ⟨cps₁, ev₁, ev₂, hstep, hrun, hev⟩ :=
      wrRun_cons_inv F sd fuel r0 rest cps cps2 ev h
    have hr0 : r ≠ r0 := fun hcon => hr (by rw [hcon]; exact List.mem_cons_self _ _)
    have hrest : r ∉ rest := fun hcon => hr (List.mem_cons_of_mem _ hcon)
    obtain ⟨out, _, hc1, he1⟩ := wrStep_inv F sd fuel cps r0 cps₁ ev₁ hstep
    obtain ⟨hframe, hnoev⟩ := ih cps₁ cps2 ev₂ r hrest hrun
    refine ⟨?_, ?_⟩
    · rw [hframe, hc1]
      exact commitOf_frame cps r0 out r hr0
    · intro e he
      rw [hev] at he
      rcases List.mem_append.mp he with h1 | h1
      · rw [he1] at h1
        rw [eventsOf_repo r0 out e h1]
        exact fun hcon => hr0 hcon.symm
      · exact hnoev e h1

/-! ## Event-ordering toolkit -/


theorem noYieldAfterCommit_of_no_commit (r : String) (ev : List Event)
    (h : ∀ w, Event.committed r w ∉ ev) : noYieldAfterCommit r ev := by
  intro t1 w t2 hev p _
  exact absurd (by
    rw [hev]
    exact List.mem_append_right _ (List.mem_cons_self _ _)) (h w)

theorem noYieldAfterCommit_block (r : String) (ems : List Page) (w : Nat) :
    noYieldAfterCommit r
      (ems.map (Event.yielded r) ++ [Event.committed r w]) := by
  induction ems with
  | nil =>
    intro t1 w2 t2 hev p
    simp only [List.map_nil, List.nil_append] at hev
    cases t1 with
    | nil =>
      simp only [List.nil_append, List.cons.injEq] at hev
      rw [← hev.2]
      simp
    | cons e t1 =>
      exfalso
      simp only [List.cons_append, List.cons.injEq] at hev
      exact absurd hev.2.symm (by simp)
  | cons p0 rest ih =>
    intro t1 w2 t2 hev p
    cases t1 with
    | nil =>
      exfalso
      simp only [List.map_cons, List.cons_append, List.nil_append,
        List.cons.injEq] at hev
      exact Event.noConfusion hev.1
    | cons e t1 =>
      simp only [List.map_cons, List.cons_append, List.cons.injEq] at hev
      exact ih t1 w2 t2 hev.2 p

theorem noYieldAfterCommit_append (r : String) (ev1 ev2 : List Event)
    (h1 : noYieldAfterCommit r ev1) (h2 : noYieldAfterCommit r ev2)
    (hcross : ∀ w, Event.committed r w ∈ ev1 →
      ∀ p, Event.yielded r p ∉ ev2) :
    noYieldAfterCommit r (ev1 ++ ev2) := by
  intro t1 w t2 hev p hp
  rcases List.append_eq_append_iff.mp hev with ⟨m, hm1, hm2⟩ | ⟨m, hm1, hm2⟩
  · exact h2 m w t2 hm2 p hp
  · cases m with
    | nil =>
      simp only [List.nil_append] at hm2
      exact h2 [] w t2 (by rw [List.nil_append, ← hm2]) p hp
    | cons e m2 =>
      simp only [List.cons_append, List.cons.injEq] at hm2
      rcases hm2 with ⟨he, ht2⟩
      have hcm : Event.committed r w ∈ ev1 := by
        rw [hm1, ← he]
        exact List.mem_append_right _ (List.mem_cons_self _ _)
      rw [ht2] at hp
      rcases List.mem_append.mp hp with hq | hq
      · exact h1 t1 w m2 (by rw [hm1, ← he]) p hq
      · exact hcross w hcm p hq

/-! ## Claim theorems -/

/-- C1 (cap-narrowing correctness): for every parent and every synthetic
capped fetcher backed by a dataset with strictly reverse-chronological
timestamps — such a fetcher returns exactly `cap = 1000` records
(10 pages of 100) whenever the window holds at least 1000 records and
fewer otherwise — the `workflow_runs` window loop terminates (fuel
`|ds| + 1` suffices) without failure and emits every record at or after
the lower bound exactly once, in order: the concatenation of the yielded
pages equals the dataset's window, and is duplicate-free.  This holds for
datasets of any size, in particular ten-fold beyond the cap. -/
theorem C1_cap_narrowing (ds : List ApiRecord) (lower : Nat)
    (hs : List.Pairwise tsDesc ds) :
    ∃ out, extractParent (fetchOf ds lower) lower (ds.length + 1) = some out ∧
      out.failed = false ∧
      out.emitted.flatten = windowRecs ds lower none ∧
      out.emitted.flatten.Nodup := by
  have hlt : (windowRecs ds lower none).length < ds.length + 1 := by
    have h1 := List.length_filter_le (inWin lower none) ds
    unfold windowRecs
    omega
  obtain ⟨ps, qs2, heq, hflat⟩ := runWindows_fetchOf ds lower hs (ds.length + 1)
    none none none [] [] hlt
  have hnd : ds.Nodup := by
    refine hs.imp ?_
    intro a b hab heq2
    rw [heq2] at hab
    exact lt_irrefl _ hab
  refine ⟨_, heq, rfl, ?_, ?_⟩
  · show ([] ++ ps).flatten = windowRecs ds lower none
    rw [List.nil_append, hflat]
  · show ([] ++ ps).flatten.Nodup
    rw [List.nil_append, hflat]
    exact hnd.filter _

theorem C1_cap_narrowing_witness :
    List.Pairwise tsDesc
      [⟨0, 3⟩, ⟨1, 2⟩, ⟨2, 1⟩] ∧
    ∃ out, extractParent
        (fetchOf [⟨0, 3⟩, ⟨1, 2⟩, ⟨2, 1⟩] 0) 0
        (([⟨0, 3⟩, ⟨1, 2⟩, ⟨2, 1⟩] : List ApiRecord).length + 1) = some out ∧
      out.failed = false ∧
      out.emitted.flatten = windowRecs [⟨0, 3⟩, ⟨1, 2⟩, ⟨2, 1⟩] 0 none ∧
      out.emitted.flatten.Nodup :=
  ⟨by decide, C1_cap_narrowing [⟨0, 3⟩, ⟨1, 2⟩, ⟨2, 1⟩] 0 (by decide)⟩


set_option maxRecDepth 100000 in
/-- C7 (concrete scenario): parent `"org/repo"`, no checkpoint, default
start 2024-01-01, page size 100, cap 1000.  `workflow_runs` emits exactly
1250 records, issues exactly the two windows `[2024-01-01, OPEN)` and
`[2024-01-01, 2024-03-15)`, does not fail, and commits the final
watermark 2024-06-01 (the very first record's date). -/
theorem C7_concrete_scenario :
    (extractParent scenFetch 20240101 3).map WROut.failed = some false ∧
    (extractParent scenFetch 20240101 3).map
        (fun out => out.emitted.flatten.length) = some 1250 ∧
    (extractParent scenFetch 20240101 3).map WROut.latest =
      some (some 20240601) ∧
    (extractParent scenFetch 20240101 3).map WROut.queries =
      some [(20240101, none), (20240101, some 20240315)] ∧
    (wrStep (fun _ _ => scenFetch) 20240101 3 (fun _ => none)
        "org/repo").map (fun pr => pr.1 "org/repo") =
      some (some 20240601) := by
  refine ⟨?_, ?_, ?_, ?_, ?_⟩
  · decide
  · decide
  · decide
  · decide
  · decide


/-- C8 counterexample: with a fetcher that produces no pages at all for
the first window, the extraction does NOT terminate normally — line 179
(`if not page or in_limit`) reads the never-bound variable `page`, the
resulting `UnboundLocalError` is caught by the per-parent handler, and a
parent-level failure is recorded — contradicting the claim that this
case is not an error. -/
theorem C8_counterexample :
    (extractParent fNoPages 0 1).map WROut.failed = some true := by decide

/-- C8 (amended): an empty first page ends the window loop normally, in
ANY window of a parent's extraction — for every cursor and every carried
state (`latest_run_date`, the loop variable `page`, pages already
yielded, queries already issued): no parent-level failure, no further
query issued after this window, nothing further emitted, and
`latest_run_date` unchanged.  Moreover a fetch yielding NO page at all
ALSO ends the loop normally whenever `page` is already bound to a
non-empty page (as it is in every window after one that yielded
records), because `in_limit` is still set.  Finally, when nothing was
ever observed (`latest_run_date` still `None`) the subsequent checkpoint
commit leaves the mapping unchanged.  Only a zero-page fetch with `page`
still unbound raises `UnboundLocalError` (line 179), recorded as a
parent-level failure; see the counterexample. -/
theorem C8_empty_page_window (fetch : Fetch) (lower fuel : Nat) (c : Cursor)
    (latest : Option Nat) (pv : Option Page) (em : List Page)
    (qs : List (Nat × Cursor)) (hf : 0 < fuel) :
    (((fetch c).pages).head? = some ([] : Page) →
      runWindows fetch lower fuel c latest pv em qs =
        some ⟨false, latest, em, qs ++ [(lower, c)]⟩) ∧
    ((fetch c).pages = [] → (fetch c).raises = false →
      ∀ p0, pv = some p0 → p0 ≠ [] →
      runWindows fetch lower fuel c latest pv em qs =
        some ⟨false, latest, em, qs ++ [(lower, c)]⟩) ∧
    (latest = none → ∀ (cps : CP) (r : String),
      commitOf cps r ⟨false, latest, em, qs ++ [(lower, c)]⟩ = cps) := by
  cases fuel with
  | zero => omega
  | succ fuel =>
    refine ⟨?_, ?_, ?_⟩
    · intro hfp
      obtain ⟨rest, hpg⟩ : ∃ rest, (fetch c).pages = [] :: rest := by
        cases hx : (fetch c).pages with
        | nil => rw [hx] at hfp; cases hfp
        | cons a l =>
          rw [hx] at hfp
          injection hfp with h2
          subst h2
          exact ⟨l, rfl⟩
      have hsdef : processPages (fetch c).pages 0
          ⟨latest, none, true, pv, false, []⟩ =
          (⟨latest, none, true, some [], true, []⟩ : PageLoopState) := by
        rw [hpg, processPages, if_pos rfl]
      rw [runWindows_step_break fetch lower fuel c latest pv em qs _ []
        hsdef (by simp) rfl (by simp)]
      simp
    · intro hpg hraise p0 hpv0 hp0ne
      have hsdef : processPages (fetch c).pages 0
          ⟨latest, none, true, pv, false, []⟩ =
          (⟨latest, none, true, pv, false, []⟩ : PageLoopState) := by
        rw [hpg, processPages]
      rw [runWindows_step_break fetch lower fuel c latest pv em qs _ p0
        hsdef (by simp [hraise]) hpv0 (by simp)]
      simp
    · intro hl cps r
      subst hl
      rfl

theorem C8_empty_page_window_witness :
    (runWindows C8fetch 0 1 none none none [] [] =
      some ⟨false, none, [], [(0, none)]⟩) ∧
    (runWindows C8fetch 0 1 (some 7) none (some [⟨0, 5⟩]) [] [] =
      some ⟨false, none, [], [(0, some 7)]⟩) ∧
    (∀ (cps : CP) (r : String),
      commitOf cps r ⟨false, none, [], [(0, none)]⟩ = cps) :=
  ⟨(C8_empty_page_window C8fetch 0 1 none none none [] []
      (by decide)).1 rfl,
   (C8_empty_page_window C8fetch 0 1 (some 7) none (some [⟨0, 5⟩]) [] []
      (by decide)).2.1 rfl rfl [⟨0, 5⟩] rfl (by simp),
   (C8_empty_page_window C8fetch 0 1 none none none [] []
      (by decide)).2.2 rfl⟩

/-- C2 (newest-seen stability): for every fetcher, if a parent's
extraction completes without failure having observed at least one record
(a watermark was produced), then the committed watermark is exactly the
`created_at` of the first record of the very first page ever fetched for
that parent — never an intermediate or narrowed-window boundary value —
and the first page of the first window is that very page. -/
theorem C2_newest_seen (fetch : Fetch) (lower fuel : Nat) (out : WROut)
    (w : Nat) (h : extractParent fetch lower fuel = some out)
    (hok : out.failed = false) (hw : out.latest = some w) :
    ∃ p r, ((fetch none).pages).head? = some p ∧ p.head? = some r ∧
      w = r.created_at := by
  unfold extractParent at h
  cases fuel with
  | zero => cases h
  | succ fuel =>
    set s := processPages (fetch none).pages 0
      ⟨none, none, true, none, false, []⟩ with hsdef
    cases hpg : (fetch none).pages with
    | nil =>
      have hs : s = ⟨none, none, true, none, false, []⟩ := by
        rw [hsdef, hpg]
        rfl
      by_cases hr : ((fetch none).raises && !s.broke) = true
      · rw [runWindows_step_err fetch lower fuel none none none [] [] s
          hsdef.symm hr] at h
        injection h with h2
        rw [← h2] at hok
        simp at hok
      · have hr2 : ((fetch none).raises && !s.broke) = false :=
          Bool.eq_false_iff.mpr hr
        rw [runWindows_step_unbound fetch lower fuel none none none [] [] s
          hsdef.symm hr2 (by rw [hs])] at h
        injection h with h2
        rw [← h2] at hok
        simp at hok
    | cons p1 rest =>
      cases p1 with
      | nil =>
        have hs : s = ⟨none, none, true, some [], true, []⟩ := by
          rw [hsdef, hpg]
          rfl
        have hr2 : ((fetch none).raises && !s.broke) = false := by
          rw [hs]
          simp
        rw [runWindows_step_break fetch lower fuel none none none [] [] s []
          hsdef.symm hr2 (by rw [hs]) (by simp)] at h
        injection h with h2
        rw [← h2] at hw
        rw [hs] at hw
        cases hw
      | cons r0 rs =>
        refine ⟨r0 :: rs, r0, rfl, rfl, ?_⟩
        have hlat : s.latest = some r0.created_at := by
          rw [hsdef, hpg, processPages, if_neg (by simp)]
          exact processPages_latest_some _ _ _ _ (by simp)
        by_cases hr : ((fetch none).raises && !s.broke) = true
        · rw [runWindows_step_err fetch lower fuel none none none [] [] s
            hsdef.symm hr] at h
          injection h with h2
          rw [← h2] at hok
          simp at hok
        · have hr2 : ((fetch none).raises && !s.broke) = false :=
            Bool.eq_false_iff.mpr hr
          rcases hpv : s.pageVar with _ | p
          · rw [runWindows_step_unbound fetch lower fuel none none none [] []
              s hsdef.symm hr2 hpv] at h
            injection h with h2
            rw [← h2] at hok
            simp at hok
          · by_cases hbrk : (decide (p = []) || s.inLimit) = true
            · rw [runWindows_step_break fetch lower fuel none none none [] []
                s p hsdef.symm hr2 hpv hbrk] at h
              injection h with h2
              rw [← h2] at hw
              dsimp only at hw
              rw [hlat] at hw
              injection hw with hw2
              exact hw2.symm
            · have hbrk2 : (decide (p = []) || s.inLimit) = false :=
                Bool.eq_false_iff.mpr hbrk
              have hil : s.inLimit = false :=
                (Bool.or_eq_false_iff.mp hbrk2).2
              obtain ⟨o, ho⟩ := processPages_oldest_of_inLimit_false
                (fetch none).pages 0 ⟨none, none, true, none, false, []⟩ rfl
                (by rw [← hsdef]; exact hil)
              rw [← hsdef] at ho
              rw [runWindows_step_continue fetch lower fuel none none none []
                [] s p o hsdef.symm hr2 hpv hbrk2 ho] at h
              rw [hlat] at h
              have hfin := runWindows_latest_some fetch lower fuel (some o)
                r0.created_at (some p) ([] ++ s.emitted)
                ([] ++ [(lower, none)]) out h
              rw [hfin] at hw
              injection hw with hw2
              exact hw2.symm

theorem C2_newest_seen_witness :
    ∃ p r,
      ((((fun _ => ⟨[[⟨7, 42⟩]], false⟩) : Fetch) none).pages).head? = some p ∧
      p.head? = some r ∧ 42 = r.created_at :=
  C2_newest_seen (fun _ => ⟨[[⟨7, 42⟩]], false⟩) 0 1
    ⟨false, some 42, [[⟨7, 42⟩]], [(0, none)]⟩ 42 (by decide) rfl rfl


/-- C3 counterexample: for the fetcher `fBad` — which produces finite
pages of timestamped records on every call, but ignores the window so
that `oldest_run_date` never decreases — the window loop of
`workflow_runs` runs forever: no fuel suffices.  The claim's "for every
fetcher producing finite pages" is therefore false; the code itself
never forces the upper bound to decrease. -/
theorem C3_counterexample : ¬ wrTerminates fBad 0 := by
  rintro ⟨fuel, hf⟩
  unfold extractParent at hf
  rw [runWindows_fBad_none fuel none none none [] []] at hf
  simp at hf

/-- The synthetic dataset fetcher respects its windows: every record
served for window `[lower, u)` is strictly older than `u`. -/
theorem fetchOf_windowed (ds : List ApiRecord) (lower : Nat) :
    ∀ u r, r ∈ ((fetchOf ds lower (some u)).pages).flatten →
      r.created_at < u := by
  intro u r hr
  by_cases hrs : windowRecs ds lower (some u) = []
  · rw [show (fetchOf ds lower (some u)).pages = [[]] by
      simp [fetchOf, hrs]] at hr
    simp at hr
  · rw [show (fetchOf ds lower (some u)).pages =
        (chunkPages (windowRecs ds lower (some u))).take 10 by
      simp [fetchOf, hrs]] at hr
    have h2 : r ∈ (windowRecs ds lower (some u)).take 1000 := by
      have h1 := flatten_take_chunkPages 10 (windowRecs ds lower (some u))
      rw [show (100 * 10 : Nat) = 1000 by norm_num] at h1
      rw [h1] at hr
      exact hr
    have h3 : r ∈ windowRecs ds lower (some u) := List.take_subset _ _ h2
    have h4 := (List.mem_filter.mp h3).2
    simp only [inWin, Bool.and_eq_true, decide_eq_true_eq] at h4
    exact h4.2

/-- C3 (amended): the window-narrowing loop terminates for every
window-respecting fetcher — one whose records for a narrowed window
`[lower, u)` all have timestamps strictly below `u` (the spec's
half-open-window convention).  Each narrowing then strictly decreases
the upper bound, and the loop also exits whenever a window yields fewer
than `max_pages_per_window` pages.  Without that assumption the loop can
run forever (see the counterexample). -/
theorem C3_termination_windowed (fetch : Fetch) (lower : Nat)
    (Hw : ∀ u r, r ∈ ((fetch (some u)).pages).flatten → r.created_at < u) :
    wrTerminates fetch lower :=
  extractParent_terminates_of_windowed fetch lower Hw

theorem C3_termination_windowed_witness :
    (∀ u r, r ∈ (((fetchOf [⟨0, 3⟩] 0) (some u)).pages).flatten →
      r.created_at < u) ∧
    wrTerminates (fetchOf [⟨0, 3⟩] 0) 0 :=
  ⟨fetchOf_windowed [⟨0, 3⟩] 0,
   C3_termination_windowed (fetchOf [⟨0, 3⟩] 0) 0 (fetchOf_windowed [⟨0, 3⟩] 0)⟩

/-- C6 (window monotonicity): for a window-respecting fetcher, whenever
one parent's extraction completes, the first query issued is the open
window `(lower, "*")`; every issued query keeps the same lower bound; and
consecutive queries are related by `QRel`: the next query's upper bound
is exactly `oldest_run_date` — the timestamp of the last record of the
last page returned by the previous query — and is strictly below the
previous upper bound whenever one existed, so successive upper bounds
are strictly decreasing. -/
theorem C6_window_monotonic (fetch : Fetch) (lower fuel : Nat) (out : WROut)
    (Hw : ∀ u r, r ∈ ((fetch (some u)).pages).flatten → r.created_at < u)
    (h : extractParent fetch lower fuel = some out) :
    out.queries.head? = some (lower, none) ∧
    (∀ q ∈ out.queries, q.1 = lower) ∧
    List.Chain' (QRel fetch) out.queries := by
  obtain ⟨qs2, hq, hchain, hfst⟩ := runWindows_queries_chain fetch lower Hw
    fuel none none none [] [] out h
  rw [hq]
  simp only [List.nil_append]
  refine ⟨rfl, ?_, hchain⟩
  intro q hq2
  rcases List.mem_cons.mp hq2 with h1 | h1
  · rw [h1]
  · exact hfst q h1

set_option maxRecDepth 100000 in
theorem C6_window_monotonic_witness :
    (∀ u r, r ∈ (((fetchOf C6ds 0) (some u)).pages).flatten →
      r.created_at < u) ∧
    (C6out.queries.head? = some (0, none) ∧
     (∀ q ∈ C6out.queries, q.1 = 0) ∧
     List.Chain' (QRel (fetchOf C6ds 0)) C6out.queries) :=
  ⟨fetchOf_windowed C6ds 0,
   C6_window_monotonic (fetchOf C6ds 0) 0 3 C6out
     (fetchOf_windowed C6ds 0) rfl⟩

/-- C9 (commits, simple incremental fetch): for every parent, exactly one
query is issued, from the checkpoint with no upper bound; the yielded
pages are exactly the fetched pages before the first empty one (every
record of every such page is streamed); `latest_commit_date` is the first
page's first record's timestamp; and on success with a watermark the
checkpoint for that parent is set to it.  No window narrowing occurs. -/
theorem C9_commits_simple (f : Nat → FetchResult) (lower : Nat) :
    (commitsExtract f lower).queries = [(lower, none)] ∧
    (commitsExtract f lower).emitted =
      (f lower).pages.takeWhile (fun p => !p.isEmpty) ∧
    (commitsExtract f lower).latest =
      (((f lower).pages.head?.getD []).head?).map ApiRecord.created_at ∧
    (∀ (cps : CP) (r : String) (w : Nat),
      (commitsExtract f lower).failed = false →
      (commitsExtract f lower).latest = some w →
      commitOf cps r (commitsExtract f lower) r = some w) := by
  refine ⟨rfl, ?_, ?_, ?_⟩
  · show (processPagesC (f lower).pages none []).2.1 = _
    rw [processPagesC_spec]
    simp
  · show (processPagesC (f lower).pages none []).1 = _
    rw [processPagesC_spec]
    simp
  · intro cps r w hfail hlat
    simp [commitOf, hfail, hlat, cpSet]

theorem C9_commits_simple_witness :
    (commitsExtract (fun _ => ⟨[[⟨1, 9⟩]], false⟩) 4).queries =
      [(4, none)] ∧
    commitOf (fun _ => none) "x"
      (commitsExtract (fun _ => ⟨[[⟨1, 9⟩]], false⟩) 4) "x" = some 9 :=
  ⟨(C9_commits_simple (fun _ => ⟨[[⟨1, 9⟩]], false⟩) 4).1,
   (C9_commits_simple (fun _ => ⟨[[⟨1, 9⟩]], false⟩) 4).2.2.2
     (fun _ => none) "x" 9 rfl rfl⟩

/-- C10 (frame): processing one repository writes at most that
repository's own checkpoint entry — the entry of every other key is
unchanged, whether the extraction succeeds or fails, in both the
`workflow_runs` step and the `commits` step. -/
theorem C10_checkpoint_frame (F : RepoFetch) (G : CRepoFetch)
    (sd fuel : Nat) (cps : CP) (r k : String) (hk : k ≠ r) :
    (∀ (cps2 : CP) (ev : List Event),
      wrStep F sd fuel cps r = some (cps2, ev) → cps2 k = cps k) ∧
    (commitsStep G sd cps r).1 k = cps k := by
  constructor
  · intro cps2 ev h
    obtain ⟨out, _, hc, _⟩ := wrStep_inv F sd fuel cps r cps2 ev h
    rw [hc]
    exact commitOf_frame cps r out k hk
  · show commitOf cps r (commitsExtract (G r) (cpGet cps r sd)) k = cps k
    exact commitOf_frame _ _ _ _ hk

theorem C10_checkpoint_frame_witness :
    "a" ≠ "b" ∧
    (commitsStep (fun _ _ => ⟨[], false⟩) 0 (fun _ => none) "b").1 "a" =
      (fun _ => (none : Option Nat)) "a" :=
  ⟨by decide,
   (C10_checkpoint_frame (fun _ _ _ => ⟨[], false⟩) (fun _ _ => ⟨[], false⟩)
     0 1 (fun _ => none) "b" "a" (by decide)).2⟩

/-- C4 (failure isolation): parents `a`, `b`, `c` processed in that
order; `a` succeeds with watermark `wa`, `b`'s extraction raises (the
caught-failure outcome), `c` completes with any outcome.  Then the run
completes, `a`'s checkpoint is updated to `wa`, `b`'s checkpoint keeps
its pre-run value, `c` is still processed — the final checkpoint state is
exactly `c`'s own commit applied after `a`'s, and the trace is the three
parents' traces in order.  Nothing is rolled back. -/
theorem C4_failure_isolation (F : RepoFetch) (sd fuel : Nat) (cps0 : CP)
    (a b c : String) (hab : a ≠ b) (hac : a ≠ c) (hbc : b ≠ c)
    (outA outB outC : WROut) (wa : Nat)
    (hA : extractParent (F a (cpGet cps0 a sd)) (cpGet cps0 a sd) fuel =
      some outA)
    (hAok : outA.failed = false) (hAw : outA.latest = some wa)
    (hB : extractParent (F b (cpGet cps0 b sd)) (cpGet cps0 b sd) fuel =
      some outB)
    (hBfail : outB.failed = true)
    (hC : extractParent (F c (cpGet cps0 c sd)) (cpGet cps0 c sd) fuel =
      some outC) :
    ∃ cps3 ev, wrRun F sd fuel [a, b, c] cps0 = some (cps3, ev) ∧
      cps3 a = some wa ∧ cps3 b = cps0 b ∧
      cps3 = commitOf (cpSet cps0 a wa) c outC ∧
      ev = eventsOf a outA ++ (eventsOf b outB ++ eventsOf c outC) := by
  have hba : b ≠ a := Ne.symm hab
  have hca : c ≠ a := Ne.symm hac
  have hgetb : cpGet (cpSet cps0 a wa) b sd = cpGet cps0 b sd := by
    unfold cpGet cpSet
    simp [hba]
  have hgetc : cpGet (cpSet cps0 a wa) c sd = cpGet cps0 c sd := by
    unfold cpGet cpSet
    simp [hca]
  have hcA : commitOf cps0 a outA = cpSet cps0 a wa := by
    simp [commitOf, hAok, hAw]
  have hcB : commitOf (cpSet cps0 a wa) b outB = cpSet cps0 a wa := by
    simp [commitOf, hBfail]
  have hstepA : wrStep F sd fuel cps0 a =
      some (cpSet cps0 a wa, eventsOf a outA) := by
    unfold wrStep
    rw [hA, Option.map_some', hcA]
  have hstepB : wrStep F sd fuel (cpSet cps0 a wa) b =
      some (cpSet cps0 a wa, eventsOf b outB) := by
    unfold wrStep
    rw [hgetb, hB, Option.map_some', hcB]
  have hstepC : wrStep F sd fuel (cpSet cps0 a wa) c =
      some (commitOf (cpSet cps0 a wa) c outC, eventsOf c outC) := by
    unfold wrStep
    rw [hgetc, hC, Option.map_some']
  refine ⟨commitOf (cpSet cps0 a wa) c outC,
    eventsOf a outA ++ (eventsOf b outB ++ (eventsOf c outC ++ [])),
    ?_, ?_, ?_, rfl, by simp⟩
  · simp only [wrRun, hstepA, hstepB, hstepC]
  · rw [commitOf_frame _ _ _ _ hac]
    simp [cpSet]
  · rw [commitOf_frame _ _ _ _ hbc]
    simp [cpSet, hba]


theorem C4_failure_isolation_witness :
    ∃ cps3 ev, wrRun C4F 0 1 ["a", "b", "c"] (fun _ => none) =
        some (cps3, ev) ∧
      cps3 "a" = some 5 ∧ cps3 "b" = (fun _ => (none : Option Nat)) "b" ∧
      cps3 = commitOf (cpSet (fun _ => none) "a" 5) "c"
        ⟨false, some 6, [[⟨2, 6⟩]], [(0, none)]⟩ ∧
      ev = eventsOf "a" ⟨false, some 5, [[⟨1, 5⟩]], [(0, none)]⟩ ++
        (eventsOf "b" ⟨true, none, [], [(0, none)]⟩ ++
          eventsOf "c" ⟨false, some 6, [[⟨2, 6⟩]], [(0, none)]⟩) :=
  C4_failure_isolation C4F 0 1 (fun _ => none) "a" "b" "c"
    (by decide) (by decide) (by decide)
    ⟨false, some 5, [[⟨1, 5⟩]], [(0, none)]⟩
    ⟨true, none, [], [(0, none)]⟩
    ⟨false, some 6, [[⟨2, 6⟩]], [(0, none)]⟩ 5
    (by decide) rfl rfl (by decide) rfl (by decide)

theorem isCommitOf_eq_true (r : String) (e : Event)
    (h : isCommitOf r e = true) : eventRepo e = r := by
  cases e with
  | yielded r2 p => simp [isCommitOf] at h
  | committed r2 w => simpa [isCommitOf, eventRepo] using h

theorem filter_commit_eventsOf_le (r r0 : String) (out : WROut) :
    ((eventsOf r0 out).filter (isCommitOf r)).length ≤ 1 := by
  unfold eventsOf
  rw [List.filter_append]
  rw [show (out.emitted.map (Event.yielded r0)).filter (isCommitOf r) = []
    from List.filter_eq_nil_iff.mpr (by
      intro e he
      obtain ⟨p, _, rfl⟩ := List.mem_map.mp he
      simp [isCommitOf])]
  rw [List.nil_append]
  refine le_trans (List.length_filter_le _ _) ?_
  split
  · simp
  · split <;> simp

theorem no_commit_in_eventsOf_of_ne (r r0 : String) (out : WROut)
    (h : r ≠ r0) : ∀ w, Event.committed r w ∉ eventsOf r0 out := by
  intro w hmem
  have h2 := eventsOf_repo r0 out _ hmem
  simp only [eventRepo] at h2
  exact h h2

theorem no_event_filter_commit_nil (r : String) (ev : List Event)
    (h : ∀ e ∈ ev, eventRepo e ≠ r) :
    ev.filter (isCommitOf r) = [] := by
  rw [List.filter_eq_nil_iff]
  intro e he hcon
  exact h e he (isCommitOf_eq_true r e hcon)

theorem naec_eventsOf (r r0 : String) (out : WROut) :
    noYieldAfterCommit r (eventsOf r0 out) := by
  by_cases hrr : r = r0
  · subst hrr
    unfold eventsOf
    split
    · refine noYieldAfterCommit_of_no_commit r _ ?_
      intro w hw
      rcases List.mem_append.mp hw with h1 | h1
      · obtain ⟨p, _, hpe⟩ := List.mem_map.mp h1
        cases hpe
      · cases h1
    · split
      · exact noYieldAfterCommit_block r out.emitted _
      · refine noYieldAfterCommit_of_no_commit r _ ?_
        intro w hw
        rcases List.mem_append.mp hw with h1 | h1
        · obtain ⟨p, _, hpe⟩ := List.mem_map.mp h1
          cases hpe
        · cases h1
  · exact noYieldAfterCommit_of_no_commit r _
      (fun w => no_commit_in_eventsOf_of_ne r r0 out hrr w)

/-- C5 (checkpoint atomicity): in any completed `workflow_runs` run over
distinct parents, for every repository `r`: (a) at most one checkpoint
commit event for `r` occurs in the trace; (b) no page of `r` is yielded
after a commit for `r` — the write happens after all records of `r` in
the run; (c) a commit for `r` with value `w` happens only if `r`'s own
extraction from its pre-run checkpoint completed without an unhandled
failure and saw `w` as its newest date; (d) if `r`'s extraction fails,
`r`'s checkpoint entry retains its pre-run value. -/
theorem C5_checkpoint_atomicity (F : RepoFetch) (sd fuel : Nat) :
    ∀ (repos : List String) (cps0 cps3 : CP) (ev : List Event)
      (r : String), repos.Nodup →
      wrRun F sd fuel repos cps0 = some (cps3, ev) →
      ((ev.filter (isCommitOf r)).length ≤ 1 ∧
       noYieldAfterCommit r ev ∧
       (∀ w, Event.committed r w ∈ ev →
         ∃ out, extractParent (F r (cpGet cps0 r sd)) (cpGet cps0 r sd)
             fuel = some out ∧ out.failed = false ∧ out.latest = some w) ∧
       (∀ out, extractParent (F r (cpGet cps0 r sd)) (cpGet cps0 r sd)
           fuel = some out → out.failed = true → cps3 r = cps0 r)) := by
  intro repos
  induction repos with
  | nil =>
    intro cps0 cps3 ev r hnd h
    injection h with h2
    have hc : cps0 = cps3 := congrArg Prod.fst h2
    have he : ([] : List Event) = ev := congrArg Prod.snd h2
    subst hc
    subst he
    exact ⟨by simp, noYieldAfterCommit_of_no_commit r [] (by simp), by simp,
      fun out _ _ => rfl⟩
  | cons r0 rest ih =>
    intro cps0 cps3 ev r hnd h
    obtain ⟨cps1, ev1, ev2, hstep, hrun, hev⟩ :=
      wrRun_cons_inv F sd fuel r0 rest cps0 cps3 ev h
    obtain ⟨out0, hex0, hc1, he1⟩ := wrStep_inv F sd fuel cps0 r0 cps1 ev1 hstep
    have hnd0 : r0 ∉ rest := (List.nodup_cons.mp hnd).1
    have hndr : rest.Nodup := (List.nodup_cons.mp hnd).2
    by_cases hrr : r = r0
    · subst hrr
      obtain ⟨hframe, hnoev⟩ := wrRun_frame F sd fuel rest cps1 cps3 ev2 r
        hnd0 hrun
      subst hev
      subst he1
      refine ⟨?_, ?_, ?_, ?_⟩
      · rw [List.filter_append,
          no_event_filter_commit_nil r ev2 (fun e he => hnoev e he),
          List.append_nil]
        exact filter_commit_eventsOf_le r r out0
      · refine noYieldAfterCommit_append r _ ev2 (naec_eventsOf r r out0)
          (noYieldAfterCommit_of_no_commit r ev2 ?_) ?_
        · intro w hw
          exact hnoev _ hw rfl
        · intro w _ p hp
          exact hnoev _ hp rfl
      · intro w hw
        rcases List.mem_append.mp hw with h1 | h1
        · obtain ⟨hfail, hlat⟩ := (eventsOf_commit_mem r out0 w).mp h1
          exact ⟨out0, hex0, hfail, hlat⟩
        · exact absurd rfl (hnoev _ h1)
      · intro out hout hfail
        rw [hex0] at hout
        injection hout with hout2
        subst hout2
        rw [hframe, hc1]
        simp [commitOf, hfail]
    · have hfr : cps1 r = cps0 r := by
        rw [hc1]
        exact commitOf_frame _ _ _ _ hrr
      have hget : cpGet cps1 r sd = cpGet cps0 r sd := by
        unfold cpGet
        rw [hfr]
      obtain ⟨ha, hb, hc, hd⟩ := ih cps1 cps3 ev2 r hndr hrun
      rw [hget] at hc hd
      subst hev
      subst he1
      have hev1r : ∀ e ∈ eventsOf r0 out0, eventRepo e ≠ r := by
        intro e he
        rw [eventsOf_repo r0 out0 e he]
        exact fun hcon => hrr hcon.symm
      refine ⟨?_, ?_, ?_, ?_⟩
      · rw [List.filter_append, no_event_filter_commit_nil r _ hev1r,
          List.nil_append]
        exact ha
      · refine noYieldAfterCommit_append r _ ev2 (naec_eventsOf r r0 out0)
          hb ?_
        intro w hw
        exact absurd rfl (hev1r _ hw ∘ fun h2 => h2)
      · intro w hw
        rcases List.mem_append.mp hw with h1 | h1
        · exact absurd rfl (hev1r _ h1)
        · exact hc w h1
      · intro out hout hfail
        rw [hd out hout hfail]
        exact hfr


theorem C5_checkpoint_atomicity_witness :
    (["x"] : List String).Nodup ∧
    ((((eventsOf "x" C5out ++ []).filter (isCommitOf "x")).length ≤ 1) ∧
     noYieldAfterCommit "x" (eventsOf "x" C5out ++ []) ∧
     (∀ w, Event.committed "x" w ∈ eventsOf "x" C5out ++ [] →
       ∃ out, extractParent (C5F "x" (cpGet (fun _ => none) "x" 0))
           (cpGet (fun _ => none) "x" 0) 1 = some out ∧
         out.failed = false ∧ out.latest = some w) ∧
     (∀ out, extractParent (C5F "x" (cpGet (fun _ => none) "x" 0))
         (cpGet (fun _ => none) "x" 0) 1 = some out →
       out.failed = true →
       commitOf (fun _ => none) "x" C5out "x" =
         (fun _ => (none : Option Nat)) "x")) :=
  ⟨by decide,
   C5_checkpoint_atomicity C5F 0 1 ["x"] (fun _ => none)
     (commitOf (fun _ => none) "x" C5out) (eventsOf "x" C5out ++ []) "x"
     (by decide) rfl⟩
